import Mathlib

/-!
Verification of the skopje ETL core: a shallow embedding of the chunked
downloader (`src/extract/http.rs`), the bijective key allocator
(`src/keymap.rs`) and the transactional batch loader (`src/load/pg.rs`),
together with proofs of the specified properties.
-/

set_option maxHeartbeats 1000000
set_option linter.unusedSectionVars false

namespace Skopje

/-! ## Chunked downloader (`src/extract/http.rs`)

`CHUNK_SIZE` is the fixed constant from the source (100 MiB).  The chunk
plan of `download_file` is embedded byte-for-byte: `num_chunks =
(file_size + CHUNK_SIZE - 1) / CHUNK_SIZE`, chunk `i` spans
`[i*CHUNK_SIZE, min ((i+1)*CHUNK_SIZE) file_size)`.
-/

def CHUNK_SIZE : Nat := 100 * 1024 * 1024

def numChunks (fileSize : Nat) : Nat := (fileSize + CHUNK_SIZE - 1) / CHUNK_SIZE

def chunkStart (i : Nat) : Nat := i * CHUNK_SIZE

def chunkEnd (i fileSize : Nat) : Nat := min ((i + 1) * CHUNK_SIZE) fileSize

/-- A byte offset `b` lies in chunk `i` of a file of size `fileSize`. -/
def inChunk (i b fileSize : Nat) : Prop :=
  i < numChunks fileSize ∧ chunkStart i ≤ b ∧ b < chunkEnd i fileSize

instance (i b fileSize : Nat) : Decidable (inChunk i b fileSize) := by
  unfold inChunk; infer_instance

/-- C3: the chunk set computed by `download_file` tiles `[0, fileSize)`
exactly once (every byte offset lies in exactly one chunk, every chunk is
nonempty and stays inside the file), and the last chunk's length is
`fileSize % CHUNK_SIZE` when that remainder is nonzero, else `CHUNK_SIZE`. -/
theorem chunk_tiling (fileSize : Nat) (hpos : 0 < fileSize) :
    (∀ b, b < fileSize → ∃! i, inChunk i b fileSize) ∧
    (∀ i, i < numChunks fileSize →
      chunkStart i < chunkEnd i fileSize ∧ chunkEnd i fileSize ≤ fileSize) ∧
    chunkEnd (numChunks fileSize - 1) fileSize - chunkStart (numChunks fileSize - 1) =
      (if fileSize % CHUNK_SIZE = 0 then CHUNK_SIZE else fileSize % CHUNK_SIZE) := by
  refine ⟨?_, ?_, ?_⟩
  · intro b hb
    refine ⟨b / CHUNK_SIZE, ?_, ?_⟩
    · simp only [inChunk, numChunks, chunkStart, chunkEnd, CHUNK_SIZE]
      refine ⟨by omega, by omega, by omega⟩
    · intro y hy
      obtain ⟨hy1, hy2, hy3⟩ := hy
      simp only [numChunks, chunkStart, chunkEnd, CHUNK_SIZE] at hy1 hy2 hy3 ⊢
      omega
  · intro i hi
    unfold numChunks chunkStart chunkEnd CHUNK_SIZE at *
    omega
  · unfold numChunks chunkStart chunkEnd CHUNK_SIZE at *
    split <;> omega

/-- Closed witness for `chunk_tiling`: spec Scenario 2's 250 MiB file. -/
theorem chunk_tiling_witness :
    0 < 250 * 1024 * 1024 ∧
    ((∀ b, b < 250 * 1024 * 1024 → ∃! i, inChunk i b (250 * 1024 * 1024)) ∧
     (∀ i, i < numChunks (250 * 1024 * 1024) →
       chunkStart i < chunkEnd i (250 * 1024 * 1024) ∧
       chunkEnd i (250 * 1024 * 1024) ≤ 250 * 1024 * 1024) ∧
     chunkEnd (numChunks (250 * 1024 * 1024) - 1) (250 * 1024 * 1024) -
         chunkStart (numChunks (250 * 1024 * 1024) - 1) =
       (if 250 * 1024 * 1024 % CHUNK_SIZE = 0 then CHUNK_SIZE
        else 250 * 1024 * 1024 % CHUNK_SIZE)) :=
  ⟨by decide, chunk_tiling (250 * 1024 * 1024) (by decide)⟩

/-- C4 counterexample: with `file_size = 0` (unknown size) `download_file`
computes `(0 + CHUNK_SIZE - 1) / CHUNK_SIZE = 0` chunks, not the single
chunk the claim asserts. -/
theorem numChunks_zero_ne_one : ¬ (numChunks 0 = 1) := by decide

/-- C4 amended: when the total size is unknown (`file_size` defaults to 0),
`download_file` issues zero chunk requests and produces an empty file. -/
theorem numChunks_zero : numChunks 0 = 0 := by decide

/-! ### Error propagation of `download_file`

The per-chunk task body in `download_file`
(`src/extract/http.rs:101-112`) matches on the result of
`download_chunk`; on `Ok` it emits a trace line, on `Err` it prints the
error to stderr with `eprintln!` and the task still completes normally.
`download_file` then awaits every task and unconditionally returns
`Ok(())`.  We embed the HTTP response for each range request as an
environment function, `download_chunk` literally (206 check, then
positioned write), and the task loop with its stderr log. -/

structure HttpResponse where
  status : Nat
  body : List Nat
  deriving DecidableEq, Repr

/-- Embedding of `download_chunk` (`src/extract/http.rs:39-70`): require
status 206 Partial Content, else fail; on success record the positioned
write `(start, body)` into the shared file. -/
def download_chunk (resp : HttpResponse) (start : Nat)
    (file : List (Nat × List Nat)) : Except String (List (Nat × List Nat)) :=
  if resp.status ≠ 206 then
    Except.error "Failed to download chunk: expected 206 Partial Content"
  else
    Except.ok (file ++ [(start, resp.body)])

structure DownloadState where
  file : List (Nat × List Nat)
  stderr : List String
  deriving DecidableEq, Repr

/-- One spawned chunk task of `download_file`
(`src/extract/http.rs:101-112`): run `download_chunk` for chunk `i`; on
`Ok` keep the written file, on `Err` print the message to stderr — the
error value itself is dropped. -/
def runChunkTask (env : Nat → Nat → HttpResponse) (fileSize i : Nat)
    (st : DownloadState) : DownloadState :=
  let start := chunkStart i
  let stop := chunkEnd i fileSize
  match download_chunk (env start stop) start st.file with
  | Except.ok f => { st with file := f }
  | Except.error msg => { st with stderr := st.stderr ++ [msg] }

/-- Embedding of `download_file` (`src/extract/http.rs:72-122`): run every
chunk task, then return `Ok(())` unconditionally. -/
def download_file (env : Nat → Nat → HttpResponse) (fileSize : Nat) :
    Except String Unit × DownloadState :=
  let st := (List.range (numChunks fileSize)).foldl
    (fun st i => runChunkTask env fileSize i st) ⟨[], []⟩
  (Except.ok (), st)

/-- An environment whose server rejects every range request with 404. -/
def badServer : Nat → Nat → HttpResponse := fun _ _ => ⟨404, []⟩

/-- C1 (failing input): for a 1-byte file whose only range request comes
back 404, the chunk task fails — the failure lands in stderr, not in the
result — yet `download_file` still returns `Ok(())`.  The per-chunk
failure is swallowed, contradicting the claim. -/
theorem download_file_swallows_chunk_error :
    (download_file badServer 1).1 = Except.ok () ∧
    (download_file badServer 1).2.stderr ≠ [] ∧
    numChunks 1 = 1 := ⟨rfl, by decide, by decide⟩

/-! ## KeyMap (`src/keymap.rs`)

The `bimap` crate's `BiMap<PK, Obj>` is embedded as a list of `(key,
value)` pairs with no duplicate key and no duplicate value; its `insert`
removes any pair sharing the key or the value before adding the new pair,
`contains_left` tests the key side, `get_by_right` looks a value up.  The
primary-key type `PK` is embedded as `Int` (the source is generic over
`PrimInt`; finiteness of the concrete integer type matters only for the
termination analysis, handled separately by the bounded scan below).

`calc_lowest_key` / `calc_next_key` are `while contains_left(next_key)
{ next_key += 1 }` loops; they are embedded as a fuelled scan
`scanFrom`, with fuel large enough that it never runs out (proved by the
characterization lemmas below: the scan's result is exactly the least
free key at or above the starting point). -/

abbrev BiMap (Obj : Type) := List (Int × Obj)

namespace BiMap

variable {Obj : Type} [DecidableEq Obj]

/-- `BiMap::contains_left`. -/
def contains_left (m : BiMap Obj) (k : Int) : Bool :=
  m.any (fun p => decide (p.1 = k))

/-- `BiMap::get_by_right`. -/
def get_by_right (m : BiMap Obj) (v : Obj) : Option Int :=
  (m.find? (fun p => decide (p.2 = v))).map Prod.fst

/-- `BiMap::insert`: removes any pair sharing the left or the right
component, then adds the new pair. -/
def insert (m : BiMap Obj) (k : Int) (v : Obj) : BiMap Obj :=
  m.filter (fun p => decide (p.1 ≠ k) && decide (p.2 ≠ v)) ++ [(k, v)]

/-- Well-formedness guaranteed by the `bimap` crate: the key side and the
value side each contain no duplicates. -/
def wf (m : BiMap Obj) : Prop :=
  (m.map Prod.fst).Nodup ∧ (m.map Prod.snd).Nodup

instance (m : BiMap Obj) : Decidable (wf m) := by
  unfold wf; infer_instance

/-- An upper bound for the key magnitudes in the map. -/
def maxKeyNat (m : BiMap Obj) : Nat :=
  (m.map (fun p => p.1.natAbs)).foldr max 0

/-- The upward `while contains_left { += 1 }` scan of
`calc_lowest_key`/`calc_next_key`, with explicit fuel. -/
def scanFrom (m : BiMap Obj) : Nat → Int → Int
  | 0, k => k
  | Nat.succ fuel, k => if m.contains_left k then scanFrom m fuel (k + 1) else k

end BiMap

/-- Embedding of `KeyMap<PK, Obj>` (`src/keymap.rs:37-44`). -/
structure KeyMap (Obj : Type) where
  bimap : BiMap Obj
  next_key : Int

namespace KeyMap

variable {Obj : Type} [DecidableEq Obj]

/-- `KeyMap::calc_lowest_key` (`src/keymap.rs:134-140`): scan upward from
zero for the first key absent from the map. -/
def calc_lowest_key (m : BiMap Obj) : Int :=
  BiMap.scanFrom m (BiMap.maxKeyNat m + 2) 0

/-- `KeyMap::from` (`src/keymap.rs:125-131`): wrap a bimap, recomputing
`next_key` from scratch. -/
def fromBimap (m : BiMap Obj) : KeyMap Obj :=
  { bimap := m, next_key := calc_lowest_key m }

/-- `KeyMap::calc_next_key` (`src/keymap.rs:143-147`): scan upward from
the current `next_key` for the first absent key. -/
def calc_next_key (km : KeyMap Obj) : KeyMap Obj :=
  { km with
    next_key :=
      BiMap.scanFrom km.bimap
        (BiMap.maxKeyNat km.bimap + 2 + km.next_key.natAbs) km.next_key }

/-- `KeyMap::transact` (`src/keymap.rs:176-188`): look the value up on the
right side; if present return its key unchanged, otherwise insert it at
`next_key`, recompute `next_key`, and return the allocated key. -/
def transact (km : KeyMap Obj) (value : Obj) : Int × KeyMap Obj :=
  match km.bimap.get_by_right value with
  | some key => (key, km)
  | none =>
    let key := km.next_key
    let km' := calc_next_key { bimap := km.bimap.insert key value, next_key := km.next_key }
    (key, km')

/-- The rows collected into a `BiMap` by `pg_fetch`'s
`.into_iter().map(..).collect()` (`src/keymap.rs:56-66`): each row is
inserted in turn. -/
def bimapOfRows (rows : List (Int × Obj)) : BiMap Obj :=
  rows.foldl (fun m p => m.insert p.1 p.2) []

/-- Embedding of `pg_fetch` (`src/keymap.rs:52-75`), over the result of
the SELECT query.  The source calls `.expect("Failed to fetch key map")`
on the query result, so a failed query PANICS instead of returning `Err`:
the panic is modelled as `none` (no normal return), a normal return as
`some`. -/
def pg_fetch (queryRes : Except String (List (Int × Obj))) :
    Option (Except String (KeyMap Obj)) :=
  match queryRes with
  | Except.error _ => none
  | Except.ok rows =>
    some (Except.ok { bimap := bimapOfRows rows,
                      next_key := calc_lowest_key (bimapOfRows rows) })

/-- The row stream written by `pg_insert` (`src/keymap.rs:95-101`): one
execute per `(key, value)` pair of the bimap. -/
def pg_insert_rows (km : KeyMap Obj) : List (Int × Obj) :=
  km.bimap

/-- The lowest-free-key invariant of the spec: `next_key` is non-negative
and absent, and every non-negative key below it is present.  Stated over
`Nat` offsets so that it is decidable on concrete maps. -/
def Inv (km : KeyMap Obj) : Prop :=
  0 ≤ km.next_key ∧ km.bimap.contains_left km.next_key = false ∧
  ∀ j : Nat, j < km.next_key.toNat → km.bimap.contains_left (j : Int) = true

instance (km : KeyMap Obj) : Decidable (Inv km) := by
  unfold Inv; infer_instance

/-- Full invariant: a well-formed bijection plus the lowest-free-key
property. -/
def Good (km : KeyMap Obj) : Prop :=
  BiMap.wf km.bimap ∧ Inv km

instance (km : KeyMap Obj) : Decidable (Good km) := by
  unfold Good; infer_instance

/-- The states reachable through the public constructors (`from`,
`pg_fetch`) and any sequence of `transact` calls. -/
inductive Reachable : KeyMap Obj → Prop
  | ofBimap (m : BiMap Obj) (hwf : BiMap.wf m) : Reachable (fromBimap m)
  | fetched (rows : List (Int × Obj)) : Reachable (fromBimap (bimapOfRows rows))
  | step (km : KeyMap Obj) (x : Obj) : Reachable km → Reachable (km.transact x).2

end KeyMap

namespace BiMap

variable {Obj : Type} [DecidableEq Obj]

lemma contains_left_iff (m : BiMap Obj) (k : Int) :
    m.contains_left k = true ↔ ∃ v, (k, v) ∈ m := by
  unfold contains_left
  simp only [List.any_eq_true, decide_eq_true_eq]
  constructor
  · rintro ⟨⟨a, b⟩, hm, h⟩
    simp only at h
    subst h
    exact ⟨b, hm⟩
  · rintro ⟨v, hv⟩
    exact ⟨(k, v), hv, rfl⟩

lemma contains_left_false_iff (m : BiMap Obj) (k : Int) :
    m.contains_left k = false ↔ ∀ v, (k, v) ∉ m := by
  rw [← Bool.not_eq_true, contains_left_iff]
  push_neg
  rfl

lemma get_by_right_eq_none_iff (m : BiMap Obj) (v : Obj) :
    m.get_by_right v = none ↔ ∀ k, (k, v) ∉ m := by
  unfold get_by_right
  simp only [Option.map_eq_none', List.find?_eq_none, decide_eq_true_eq]
  constructor
  · intro h k hk
    exact h (k, v) hk rfl
  · rintro h ⟨a, b⟩ hm rfl
    exact h a hm

lemma natAbs_le_maxKeyNat {m : BiMap Obj} {p : Int × Obj} (h : p ∈ m) :
    p.1.natAbs ≤ maxKeyNat m := by
  unfold maxKeyNat
  induction m with
  | nil => cases h
  | cons q rest ih =>
    rcases List.mem_cons.mp h with h | h
    · subst h
      simp only [List.map_cons, List.foldr_cons]
      exact le_max_left _ _
    · simp only [List.map_cons, List.foldr_cons]
      exact le_trans (ih h) (le_max_right _ _)

lemma contains_left_false_of_gt_max (m : BiMap Obj) {k : Int}
    (h : (maxKeyNat m : Int) < k) : m.contains_left k = false := by
  rw [contains_left_false_iff]
  intro v hv
  have := natAbs_le_maxKeyNat hv
  simp only at this
  have hk : k ≤ (maxKeyNat m : Int) := le_trans Int.le_natAbs (by exact_mod_cast this)
  omega

/-- Characterization of the upward scan: given enough fuel to reach a
free key, the scan returns the least free key at or above the starting
point. -/
lemma scanFrom_spec (m : BiMap Obj) :
    ∀ (fuel : Nat) (k : Int), (∃ d : Nat, d < fuel ∧ m.contains_left (k + d) = false) →
      k ≤ scanFrom m fuel k ∧
      m.contains_left (scanFrom m fuel k) = false ∧
      ∀ j : Int, k ≤ j → j < scanFrom m fuel k → m.contains_left j = true := by
  intro fuel
  induction fuel with
  | zero =>
    rintro k ⟨d, hd, -⟩
    omega
  | succ fuel ih =>
    rintro k ⟨d, hd, hfree⟩
    by_cases hk : m.contains_left k = true
    · have hd0 : d ≠ 0 := by
        rintro rfl
        simp only [Nat.cast_zero, add_zero] at hfree
        rw [hk] at hfree
        cases hfree
      have hrec : ∃ d' : Nat, d' < fuel ∧ m.contains_left (k + 1 + d') = false := by
        refine ⟨d - 1, by omega, ?_⟩
        have : k + 1 + ((d - 1 : Nat) : Int) = k + d := by omega
        rw [this]
        exact hfree
      obtain ⟨h1, h2, h3⟩ := ih (k + 1) hrec
      have hstep : scanFrom m (fuel + 1) k = scanFrom m fuel (k + 1) := by
        simp [scanFrom, hk]
      rw [hstep]
      refine ⟨by omega, h2, ?_⟩
      intro j hj1 hj2
      rcases eq_or_lt_of_le hj1 with rfl | hj1'
      · exact hk
      · exact h3 j (by omega) hj2
    · have hstop : scanFrom m (fuel + 1) k = k := by
        simp only [scanFrom]
        rw [if_neg hk]
      rw [hstop]
      exact ⟨le_refl _, by simpa using hk, fun j hj1 hj2 => by omega⟩

end BiMap

namespace KeyMap

variable {Obj : Type} [DecidableEq Obj]

lemma calc_lowest_key_spec (m : BiMap Obj) :
    0 ≤ calc_lowest_key m ∧ m.contains_left (calc_lowest_key m) = false ∧
    ∀ j : Int, 0 ≤ j → j < calc_lowest_key m → m.contains_left j = true := by
  have h := BiMap.scanFrom_spec m (BiMap.maxKeyNat m + 2) 0 ?_
  · exact ⟨h.1, h.2.1, h.2.2⟩
  · refine ⟨BiMap.maxKeyNat m + 1, by omega, ?_⟩
    apply BiMap.contains_left_false_of_gt_max
    push_cast
    omega

lemma calc_next_key_bimap (km : KeyMap Obj) : (calc_next_key km).bimap = km.bimap := rfl

lemma calc_next_key_spec (km : KeyMap Obj) :
    km.next_key ≤ (calc_next_key km).next_key ∧
    km.bimap.contains_left ((calc_next_key km).next_key) = false ∧
    ∀ j : Int, km.next_key ≤ j → j < (calc_next_key km).next_key →
      km.bimap.contains_left j = true := by
  have h := BiMap.scanFrom_spec km.bimap
    (BiMap.maxKeyNat km.bimap + 2 + km.next_key.natAbs) km.next_key ?_
  · exact ⟨h.1, h.2.1, h.2.2⟩
  · refine ⟨((BiMap.maxKeyNat km.bimap : Int) + 1 - km.next_key).toNat, by omega, ?_⟩
    apply BiMap.contains_left_false_of_gt_max
    omega

end KeyMap

lemma find?_append_of_none {α : Type} {l₁ l₂ : List α} {p : α → Bool}
    (h : l₁.find? p = none) : (l₁ ++ l₂).find? p = l₂.find? p := by
  induction l₁ with
  | nil => rfl
  | cons a l ih =>
    have h1 : p a = false := by
      by_contra hpa
      rw [Bool.not_eq_false] at hpa
      rw [List.find?_cons_of_pos _ hpa] at h
      cases h
    have h2 : l.find? p = none := by
      rw [List.find?_cons_of_neg _ (by simp [h1])] at h
      exact h
    rw [List.cons_append, List.find?_cons_of_neg _ (by simp [h1])]
    exact ih h2

namespace BiMap

variable {Obj : Type} [DecidableEq Obj]

/-- The key just inserted is found again by a right-lookup of its value. -/
lemma get_by_right_insert_self (m : BiMap Obj) (k : Int) (v : Obj) :
    (m.insert k v).get_by_right v = some k := by
  unfold insert get_by_right
  have hnone :
      (m.filter (fun p => decide (p.1 ≠ k) && decide (p.2 ≠ v))).find?
        (fun p => decide (p.2 = v)) = none := by
    rw [List.find?_eq_none]
    intro p hp
    simp only [List.mem_filter, Bool.and_eq_true, decide_eq_true_eq] at hp
    simp only [decide_eq_true_eq]
    exact hp.2.2
  rw [Skopje.find?_append_of_none hnone]
  simp [List.find?_cons]

lemma contains_left_append (m m' : BiMap Obj) (k : Int) :
    (m ++ m').contains_left k = (m.contains_left k || m'.contains_left k) :=
  List.any_append

/-- When the key and the value are both fresh, `insert` removes nothing:
it just appends the new pair. -/
lemma insert_eq_append (m : BiMap Obj) (k : Int) (v : Obj)
    (h1 : m.contains_left k = false) (h2 : m.get_by_right v = none) :
    m.insert k v = m ++ [(k, v)] := by
  unfold insert
  rw [List.filter_eq_self.mpr]
  rintro ⟨pk, pv⟩ hp
  simp only [Bool.and_eq_true, decide_eq_true_eq]
  rw [contains_left_false_iff] at h1
  rw [get_by_right_eq_none_iff] at h2
  constructor
  · intro hk
    subst hk
    exact h1 pv hp
  · intro hv
    subst hv
    exact h2 pk hp

lemma wf_insert (m : BiMap Obj) (k : Int) (v : Obj) (h : wf m) :
    wf (m.insert k v) := by
  obtain ⟨h1, h2⟩ := h
  constructor
  · rw [insert, List.map_append]
    simp only [List.map_cons, List.map_nil]
    rw [List.nodup_append]
    refine ⟨(h1.sublist (List.Sublist.map _ (List.filter_sublist _))),
      List.nodup_singleton _, ?_⟩
    intro a ha hb
    rw [List.mem_singleton] at hb
    subst hb
    simp only [List.mem_map, List.mem_filter, Bool.and_eq_true, decide_eq_true_eq] at ha
    obtain ⟨p, ⟨-, hpk, -⟩, hpa⟩ := ha
    exact hpk hpa
  · rw [insert, List.map_append]
    simp only [List.map_cons, List.map_nil]
    rw [List.nodup_append]
    refine ⟨(h2.sublist (List.Sublist.map _ (List.filter_sublist _))),
      List.nodup_singleton _, ?_⟩
    intro a ha hb
    rw [List.mem_singleton] at hb
    subst hb
    simp only [List.mem_map, List.mem_filter, Bool.and_eq_true, decide_eq_true_eq] at ha
    obtain ⟨p, ⟨-, -, hpv⟩, hpa⟩ := ha
    exact hpv hpa

end BiMap

namespace KeyMap

variable {Obj : Type} [DecidableEq Obj]

lemma foldl_insert_wf (rows : List (Int × Obj)) :
    ∀ acc : BiMap Obj, BiMap.wf acc →
      BiMap.wf (rows.foldl (fun m p => m.insert p.1 p.2) acc) := by
  induction rows with
  | nil => intro acc h; exact h
  | cons p rs ih => intro acc h; exact ih _ (BiMap.wf_insert _ _ _ h)

lemma bimapOfRows_wf (rows : List (Int × Obj)) : BiMap.wf (bimapOfRows rows) :=
  foldl_insert_wf rows [] ⟨List.nodup_nil, List.nodup_nil⟩

/-- Two least non-negative free keys of the same map coincide. -/
lemma least_free_unique (m : BiMap Obj) {a b : Int}
    (ha0 : 0 ≤ a) (ha : m.contains_left a = false)
    (ha' : ∀ j : Int, 0 ≤ j → j < a → m.contains_left j = true)
    (hb0 : 0 ≤ b) (hb : m.contains_left b = false)
    (hb' : ∀ j : Int, 0 ≤ j → j < b → m.contains_left j = true) : a = b := by
  rcases lt_trichotomy a b with h | h | h
  · have := hb' a ha0 h
    rw [ha] at this
    cases this
  · exact h
  · have := ha' b hb0 h
    rw [hb] at this
    cases this

lemma fromBimap_good (m : BiMap Obj) (h : BiMap.wf m) : Good (fromBimap m) := by
  obtain ⟨h0, hfree, hmin⟩ := calc_lowest_key_spec m
  refine ⟨h, h0, hfree, ?_⟩
  intro j hj
  simp only [fromBimap] at hj ⊢
  exact hmin j (by omega) (by omega)

lemma transact_snd_some (km : KeyMap Obj) (x : Obj) (k : Int)
    (hr : km.bimap.get_by_right x = some k) : km.transact x = (k, km) := by
  simp [transact, hr]

lemma transact_snd_none (km : KeyMap Obj) (x : Obj)
    (hr : km.bimap.get_by_right x = none) :
    km.transact x =
      (km.next_key,
       calc_next_key { bimap := km.bimap.insert km.next_key x,
                       next_key := km.next_key }) := by
  simp [transact, hr]

lemma transact_good (km : KeyMap Obj) (x : Obj) (h : Good km) :
    Good (km.transact x).2 := by
  obtain ⟨hwf, hnk0, hfree, hbelow⟩ := h
  cases hr : km.bimap.get_by_right x with
  | some key =>
    rw [transact_snd_some km x key hr]
    exact ⟨hwf, hnk0, hfree, hbelow⟩
  | none =>
    rw [transact_snd_none km x hr]
    have hins : km.bimap.insert km.next_key x = km.bimap ++ [(km.next_key, x)] :=
      BiMap.insert_eq_append _ _ _ hfree hr
    obtain ⟨hle, hfree', hmin⟩ :=
      calc_next_key_spec { bimap := km.bimap.insert km.next_key x,
                           next_key := km.next_key }
    refine ⟨BiMap.wf_insert _ _ _ hwf, ?_, hfree', ?_⟩
    · simp only at hle ⊢
      omega
    · intro j hj
      simp only [calc_next_key_bimap] at *
      by_cases hcase : (j : Int) < km.next_key
      · have hb := hbelow j (by omega)
        show (km.bimap.insert km.next_key x).contains_left (j : Int) = true
        rw [hins, BiMap.contains_left_append, hb]
        rfl
      · exact hmin j (by omega) (by omega)

lemma reachable_good {km : KeyMap Obj} (h : Reachable km) : Good km := by
  induction h with
  | ofBimap m hwf => exact fromBimap_good m hwf
  | fetched rows => exact fromBimap_good _ (bimapOfRows_wf rows)
  | step km' x hr ih => exact transact_good km' x ih

/-- C2: after every `transact` call on a state reachable through
`from`/`pg_fetch` and any sequence of `transact` calls, `next_key` is
non-negative, absent from the key side of `bimap`, and every non-negative
integer strictly below it is present — `next_key` is the minimum free
non-negative key. -/
theorem transact_lowest_free_key (km : KeyMap Obj) (x : Obj) (h : Reachable km) :
    0 ≤ (km.transact x).2.next_key ∧
    (km.transact x).2.bimap.contains_left ((km.transact x).2.next_key) = false ∧
    ∀ j : Int, 0 ≤ j → j < (km.transact x).2.next_key →
      (km.transact x).2.bimap.contains_left j = true := by
  obtain ⟨-, h0, hfree, hbelow⟩ := transact_good km x (reachable_good h)
  refine ⟨h0, hfree, ?_⟩
  intro j hj0 hjlt
  have := hbelow j.toNat (by omega)
  rwa [Int.toNat_of_nonneg hj0] at this

/-- Closed witness for `transact_lowest_free_key`: the scenario of the
spec, keys 0, 1, 3 present, then `transact` of a fresh object. -/
theorem transact_lowest_free_key_witness :
    Reachable (fromBimap ([(0, 10), (1, 11), (3, 13)] : BiMap Nat)) ∧
    (0 ≤ ((fromBimap ([(0, 10), (1, 11), (3, 13)] : BiMap Nat)).transact 12).2.next_key ∧
     ((fromBimap ([(0, 10), (1, 11), (3, 13)] : BiMap Nat)).transact 12).2.bimap.contains_left
       (((fromBimap ([(0, 10), (1, 11), (3, 13)] : BiMap Nat)).transact 12).2.next_key) = false ∧
     ∀ j : Int, 0 ≤ j →
       j < ((fromBimap ([(0, 10), (1, 11), (3, 13)] : BiMap Nat)).transact 12).2.next_key →
       ((fromBimap ([(0, 10), (1, 11), (3, 13)] : BiMap Nat)).transact 12).2.bimap.contains_left
         j = true) :=
  ⟨Reachable.ofBimap _ (by decide),
   transact_lowest_free_key _ 12 (Reachable.ofBimap _ (by decide))⟩

/-- C7: calling `transact` twice in a row with the same object returns
the same key both times, and the second call changes neither the bimap
nor `next_key` (the state after the second call is exactly the state
after the first). -/
theorem transact_idempotent (km : KeyMap Obj) (x : Obj) :
    ((km.transact x).2.transact x).1 = (km.transact x).1 ∧
    ((km.transact x).2.transact x).2 = (km.transact x).2 := by
  cases hr : km.bimap.get_by_right x with
  | some key =>
    rw [transact_snd_some km x key hr]
    rw [transact_snd_some km x key hr]
    exact ⟨rfl, rfl⟩
  | none =>
    rw [transact_snd_none km x hr]
    have hgr :
        (calc_next_key { bimap := km.bimap.insert km.next_key x,
                         next_key := km.next_key }).bimap.get_by_right x =
          some km.next_key := by
      rw [calc_next_key_bimap]
      exact BiMap.get_by_right_insert_self km.bimap km.next_key x
    rw [transact_snd_some _ x km.next_key hgr]
    exact ⟨rfl, rfl⟩

lemma wf_of_perm {rows m : BiMap Obj} (hp : rows.Perm m) (h : BiMap.wf m) :
    BiMap.wf rows :=
  ⟨((hp.map Prod.fst).nodup_iff).mpr h.1, ((hp.map Prod.snd).nodup_iff).mpr h.2⟩

lemma contains_left_of_perm {rows m : BiMap Obj} (hp : rows.Perm m) (k : Int) :
    rows.contains_left k = m.contains_left k := by
  rw [Bool.eq_iff_iff, BiMap.contains_left_iff, BiMap.contains_left_iff]
  constructor
  · rintro ⟨v, hv⟩
    exact ⟨v, hp.mem_iff.mp hv⟩
  · rintro ⟨v, hv⟩
    exact ⟨v, hp.mem_iff.mpr hv⟩

lemma contains_left_false_of_not_mem_fst {m : BiMap Obj} {k : Int}
    (h : k ∉ m.map Prod.fst) : m.contains_left k = false := by
  rw [BiMap.contains_left_false_iff]
  intro v hv
  exact h (List.mem_map_of_mem Prod.fst hv)

lemma get_by_right_none_of_not_mem_snd {m : BiMap Obj} {v : Obj}
    (h : v ∉ m.map Prod.snd) : m.get_by_right v = none := by
  rw [BiMap.get_by_right_eq_none_iff]
  intro k hk
  exact h (List.mem_map_of_mem Prod.snd hk)

lemma foldl_insert_eq :
    ∀ (rs : List (Int × Obj)) (acc : BiMap Obj), BiMap.wf (acc ++ rs) →
      rs.foldl (fun m p => m.insert p.1 p.2) acc = acc ++ rs := by
  intro rs
  induction rs with
  | nil => intro acc h; simp
  | cons p rs' ih =>
    intro acc h
    have hmk : p.1 ∉ acc.map Prod.fst := by
      have h1 := h.1
      rw [List.map_append, List.nodup_append] at h1
      intro hmem
      exact h1.2.2 hmem (by simp)
    have hmv : p.2 ∉ acc.map Prod.snd := by
      have h2 := h.2
      rw [List.map_append, List.nodup_append] at h2
      intro hmem
      exact h2.2.2 hmem (by simp)
    have hins : acc.insert p.1 p.2 = acc ++ [p] := by
      have := BiMap.insert_eq_append acc p.1 p.2
        (contains_left_false_of_not_mem_fst hmk)
        (get_by_right_none_of_not_mem_snd hmv)
      simpa using this
    rw [List.foldl_cons, hins, ih (acc ++ [p]) (by simpa [List.append_assoc] using h)]
    simp

lemma bimapOfRows_eq_self (rows : List (Int × Obj)) (h : BiMap.wf rows) :
    bimapOfRows rows = rows := by
  have := foldl_insert_eq rows [] (by simpa using h)
  simpa [bimapOfRows] using this

/-- C6: persisting a `Good` (reachable) KeyMap with `pg_insert` and
re-loading the persisted rows with `pg_fetch` — the store faithfully
returning the inserted `(key, object)` rows in some order — yields a
KeyMap with the same bijection (same set of pairs) and the same
`next_key`. -/
theorem pg_roundtrip (km : KeyMap Obj) (rows : List (Int × Obj))
    (hgood : Good km) (hperm : rows.Perm (pg_insert_rows km)) :
    ∃ km' : KeyMap Obj,
      pg_fetch (Except.ok rows) = some (Except.ok km') ∧
      (∀ p : Int × Obj, p ∈ km'.bimap ↔ p ∈ km.bimap) ∧
      km'.next_key = km.next_key := by
  obtain ⟨hwf, hnk0, hfree, hbelow⟩ := hgood
  have hperm' : rows.Perm km.bimap := hperm
  have hwfrows : BiMap.wf rows := wf_of_perm hperm' hwf
  have heq : bimapOfRows rows = rows := bimapOfRows_eq_self rows hwfrows
  refine ⟨_, rfl, ?_, ?_⟩
  · intro p
    show p ∈ bimapOfRows rows ↔ p ∈ km.bimap
    rw [heq]
    exact hperm'.mem_iff
  · show calc_lowest_key (bimapOfRows rows) = km.next_key
    rw [heq]
    obtain ⟨h0, hf, hm⟩ := calc_lowest_key_spec rows
    refine least_free_unique rows h0 hf hm hnk0 ?_ ?_
    · rw [contains_left_of_perm hperm']
      exact hfree
    · intro j hj0 hjlt
      rw [contains_left_of_perm hperm']
      have := hbelow j.toNat (by omega)
      rwa [Int.toNat_of_nonneg hj0] at this

/-- Closed witness for `pg_roundtrip`: a two-entry KeyMap whose rows come
back from the store in the opposite order. -/
theorem pg_roundtrip_witness :
    Good (fromBimap ([(0, 10), (1, 20)] : BiMap Nat)) ∧
    ([(1, 20), (0, 10)] : List (Int × Nat)).Perm
      (pg_insert_rows (fromBimap ([(0, 10), (1, 20)] : BiMap Nat))) ∧
    ∃ km' : KeyMap Nat,
      pg_fetch (Except.ok [(1, 20), (0, 10)]) = some (Except.ok km') ∧
      (∀ p : Int × Nat,
        p ∈ km'.bimap ↔ p ∈ (fromBimap ([(0, 10), (1, 20)] : BiMap Nat)).bimap) ∧
      km'.next_key = (fromBimap ([(0, 10), (1, 20)] : BiMap Nat)).next_key :=
  ⟨by decide, by decide,
   pg_roundtrip (fromBimap ([(0, 10), (1, 20)] : BiMap Nat)) [(1, 20), (0, 10)]
     (by decide) (by decide)⟩

/-- C9 (failing input): when the SELECT query fails, `pg_fetch` does not
return at all — the `.expect("Failed to fetch key map")` call panics
(modelled as `none`) instead of surfacing an `Err` to the caller. -/
theorem pg_fetch_panics_on_query_error :
    (pg_fetch (Except.error "query failed") :
      Option (Except String (KeyMap Nat))) = none := rfl

/-- Closed witness for `transact_idempotent` (no propositional hypothesis;
recorded at a concrete state for completeness). -/
theorem transact_idempotent_witness :
    (((fromBimap ([(0, 10)] : BiMap Nat)).transact 12).2.transact 12).1 =
      ((fromBimap ([(0, 10)] : BiMap Nat)).transact 12).1 ∧
    (((fromBimap ([(0, 10)] : BiMap Nat)).transact 12).2.transact 12).2 =
      ((fromBimap ([(0, 10)] : BiMap Nat)).transact 12).2 :=
  transact_idempotent (fromBimap ([(0, 10)] : BiMap Nat)) 12

end KeyMap

/-! ## Batch loader (`src/load/pg.rs`)

The relational connection is embedded by passing in the outcome of each
external operation: the prepared-statement creation, the transaction
open, each per-record execute (for `insert`) or per-row binary write (for
`copy`), the copy `finish`, and the commit.  The control flow around
those outcomes is translated literally from the source. -/

namespace PgLoad

/-- The `while let Some(item) = stream.next()` loop of `insert`
(`src/load/pg.rs:63-77`): `tx.execute(..).await?` ends the function at
the first failing record. -/
def runInserts : List (Except String Unit) → Except String Unit
  | [] => Except.ok ()
  | r :: rs =>
    match r with
    | Except.error e => Except.error e
    | Except.ok _ => runInserts rs

structure InsertOutcome where
  result : Except String Unit
  committed : Bool

/-- Embedding of `insert` (`src/load/pg.rs:50-86`): prepare, open a
transaction, execute once per record with `?`, then commit.  `committed`
records whether `tx.commit()` was reached and succeeded; on any earlier
failure the transaction is dropped un-committed. -/
def insert (prepRes txRes : Except String Unit)
    (execRes : List (Except String Unit)) (commitRes : Except String Unit) :
    InsertOutcome :=
  match prepRes with
  | Except.error e => ⟨Except.error e, false⟩
  | Except.ok _ =>
    match txRes with
    | Except.error e => ⟨Except.error e, false⟩
    | Except.ok _ =>
      match runInserts execRes with
      | Except.error e => ⟨Except.error e, false⟩
      | Except.ok _ =>
        match commitRes with
        | Except.error e => ⟨Except.error e, false⟩
        | Except.ok _ => ⟨Except.ok (), true⟩

lemma runInserts_error_of_mem {execRes : List (Except String Unit)}
    (h : ∃ e, Except.error e ∈ execRes) :
    ∃ e, runInserts execRes = Except.error e := by
  obtain ⟨e, he⟩ := h
  induction execRes with
  | nil => cases he
  | cons r rs ih =>
    cases r with
    | error e' => exact ⟨e', rfl⟩
    | ok u =>
      rcases List.mem_cons.mp he with h | h
      · cases h
      · exact ih h

lemma runInserts_ok_iff (execRes : List (Except String Unit)) :
    runInserts execRes = Except.ok () ↔ ∀ r ∈ execRes, r = Except.ok () := by
  induction execRes with
  | nil => simp [runInserts]
  | cons r rs ih =>
    cases r with
    | error e => simp [runInserts]
    | ok u =>
      cases u
      simp [runInserts, ih]

/-- C8: if executing the prepared statement fails for any record,
`insert` returns an error and the transaction is never committed; and
(when the surrounding prepare/transaction/commit operations succeed) the
batch commits exactly when every per-record execute succeeds —
all-or-nothing per batch. -/
theorem insert_all_or_nothing (prepRes txRes : Except String Unit)
    (execRes : List (Except String Unit)) (commitRes : Except String Unit) :
    ((∃ e, Except.error e ∈ execRes) →
      (∃ e, (insert prepRes txRes execRes commitRes).result = Except.error e) ∧
      (insert prepRes txRes execRes commitRes).committed = false) ∧
    (prepRes = Except.ok () → txRes = Except.ok () → commitRes = Except.ok () →
      ((insert prepRes txRes execRes commitRes).committed = true ↔
        ∀ r ∈ execRes, r = Except.ok ())) := by
  constructor
  · intro hmem
    obtain ⟨e, he⟩ := runInserts_error_of_mem hmem
    cases prepRes with
    | error e' => exact ⟨⟨e', rfl⟩, rfl⟩
    | ok u =>
      cases u
      cases txRes with
      | error e' => exact ⟨⟨e', rfl⟩, rfl⟩
      | ok u' =>
        cases u'
        simp only [insert, he]
        exact ⟨⟨e, rfl⟩, trivial⟩
  · rintro rfl rfl rfl
    cases hri : runInserts execRes with
    | error e =>
      simp only [insert, hri]
      constructor
      · intro h
        cases h
      · intro hall
        rw [(runInserts_ok_iff execRes).mpr hall] at hri
        cases hri
    | ok u =>
      cases u
      simp only [insert, hri]
      constructor
      · intro _
        exact (runInserts_ok_iff execRes).mp hri
      · intro _
        trivial

/-- Closed witness for `insert_all_or_nothing`: a batch whose second
record fails aborts with an error and no commit. -/
theorem insert_all_or_nothing_witness :
    (∃ e, Except.error e ∈ [Except.ok (), Except.error "duplicate key"]) ∧
    ((∃ e, (insert (Except.ok ()) (Except.ok ())
        [Except.ok (), Except.error "duplicate key"] (Except.ok ())).result =
        Except.error e) ∧
     (insert (Except.ok ()) (Except.ok ())
        [Except.ok (), Except.error "duplicate key"] (Except.ok ())).committed =
        false) :=
  ⟨⟨"duplicate key", by simp⟩,
   (insert_all_or_nothing (Except.ok ()) (Except.ok ())
     [Except.ok (), Except.error "duplicate key"] (Except.ok ())).1
     ⟨"duplicate key", by simp⟩⟩

structure CopyOutcome where
  result : Except String Unit
  committed : Bool
  attempted : Nat
  errlog : List String

/-- The `for item in collection` loop of `copy` (`src/load/pg.rs:102-107`):
every row is written to the binary copy writer; a failed write is logged
with `error!` and the loop continues.  Returns how many rows were
attempted and the error log. -/
def copyLoop (rowRes : List (Except String Unit)) : Nat × List String :=
  rowRes.foldl
    (fun acc r =>
      match r with
      | Except.ok _ => (acc.1 + 1, acc.2)
      | Except.error e => (acc.1 + 1, acc.2 ++ ["Failed to copy: " ++ e]))
    (0, [])

/-- Embedding of `copy` (`src/load/pg.rs:88-117`): stream every row
(logging failures without aborting), then `finish` the writer and commit
the transaction. -/
def copy (rowRes : List (Except String Unit))
    (finishRes commitRes : Except String Unit) : CopyOutcome :=
  let loop := copyLoop rowRes
  match finishRes with
  | Except.error e => ⟨Except.error e, false, loop.1, loop.2⟩
  | Except.ok _ =>
    match commitRes with
    | Except.error e => ⟨Except.error e, false, loop.1, loop.2⟩
    | Except.ok _ => ⟨Except.ok (), true, loop.1, loop.2⟩

/-- C5 (failing input): a batch whose first row write fails.  `copy` logs
the failure, keeps streaming the remaining row (`attempted = 2`), finishes
the writer, commits, and returns `Ok(())` — it does not abort. -/
theorem copy_continues_after_row_failure :
    (copy [Except.error "duplicate key", Except.ok ()]
      (Except.ok ()) (Except.ok ())).result = Except.ok () ∧
    (copy [Except.error "duplicate key", Except.ok ()]
      (Except.ok ()) (Except.ok ())).committed = true ∧
    (copy [Except.error "duplicate key", Except.ok ()]
      (Except.ok ()) (Except.ok ())).attempted = 2 ∧
    (copy [Except.error "duplicate key", Except.ok ()]
      (Except.ok ()) (Except.ok ())).errlog ≠ [] :=
  ⟨rfl, rfl, rfl, by simp [copy, copyLoop]⟩

end PgLoad

/-! ## Termination of the upward key scan over a bounded key type

`calc_lowest_key`/`calc_next_key` scan upward by `next_key += 1`.  For
the unbounded embedding (`Int` keys) the scan always terminates, because
a finite map omits some non-negative key (`calc_lowest_key_spec`).  The
source, however, instantiates `PK` at a bounded machine integer; when
every non-negative representable value `0..=maxPK` is a key, the
increment at `maxPK` overflows instead of ever finding a free key.
`scanBounded` embeds the scan over such a bounded type: stepping past
`maxPK` is the abnormal outcome `none`. -/

def scanBounded (maxPK : Nat) (keys : List Nat) : Nat → Nat → Option Nat
  | 0, _ => none
  | Nat.succ fuel, k =>
    if k ∈ keys then
      if k = maxPK then none
      else scanBounded maxPK keys fuel (k + 1)
    else some k

/-- `calc_lowest_key` over a key type whose non-negative values are
`0..=maxPK`: fuel `maxPK + 1` covers the whole representable range, so
`none` means the scan left the range (overflow), never fuel exhaustion. -/
def calc_lowest_key_bounded (maxPK : Nat) (keys : List Nat) : Option Nat :=
  scanBounded maxPK keys (maxPK + 1) 0

lemma scanBounded_finds (maxPK : Nat) (keys : List Nat) :
    ∀ (fuel k : Nat), (∃ d : Nat, d < fuel ∧ k + d ≤ maxPK ∧ (k + d) ∉ keys) →
      ∃ n, scanBounded maxPK keys fuel k = some n ∧ k ≤ n ∧ n ∉ keys ∧
        n ≤ maxPK ∧ ∀ j, k ≤ j → j < n → j ∈ keys := by
  intro fuel
  induction fuel with
  | zero =>
    rintro k ⟨d, hd, -, -⟩
    omega
  | succ fuel ih =>
    rintro k ⟨d, hd, hdm, hfree⟩
    by_cases hk : k ∈ keys
    · have hd0 : d ≠ 0 := by
        rintro rfl
        exact hfree (by simpa using hk)
      have hkm : k ≠ maxPK := by omega
      have step : scanBounded maxPK keys (fuel + 1) k =
          scanBounded maxPK keys fuel (k + 1) := by
        simp [scanBounded, hk, hkm]
      obtain ⟨n, h1, h2, h3, h4, h5⟩ := ih (k + 1)
        ⟨d - 1, by omega, by omega, by rwa [show k + 1 + (d - 1) = k + d by omega]⟩
      refine ⟨n, by rw [step]; exact h1, by omega, h3, h4, ?_⟩
      intro j hj1 hj2
      rcases Nat.eq_or_lt_of_le hj1 with rfl | hj1'
      · exact hk
      · exact h5 j hj1' hj2
    · refine ⟨k, by simp [scanBounded, hk], le_refl _, hk, by omega, ?_⟩
      intro j h1 h2
      omega

lemma scanBounded_none_of_full (maxPK : Nat) (keys : List Nat)
    (hfull : ∀ j, j ≤ maxPK → j ∈ keys) :
    ∀ (fuel k : Nat), k ≤ maxPK → scanBounded maxPK keys fuel k = none := by
  intro fuel
  induction fuel with
  | zero => intro k hk; rfl
  | succ fuel ih =>
    intro k hk
    have hkmem := hfull k hk
    by_cases hkm : k = maxPK
    · subst hkm
      simp [scanBounded, hkmem]
    · have step : scanBounded maxPK keys (fuel + 1) k =
          scanBounded maxPK keys fuel (k + 1) := by
        simp [scanBounded, hkmem, hkm]
      rw [step]
      exact ih (k + 1) (by omega)

/-- C10: the upward scan of `calc_lowest_key` terminates normally exactly
when some non-negative representable key `≤ maxPK` is absent, and then
returns the smallest absent key; if every representable non-negative key
is present, the scan leaves the representable range without ever finding
a free key (no normal termination: the increment overflows). -/
theorem calc_lowest_key_bounded_termination (maxPK : Nat) (keys : List Nat) :
    ((∃ k, k ≤ maxPK ∧ k ∉ keys) →
      ∃ n, calc_lowest_key_bounded maxPK keys = some n ∧ n ∉ keys ∧
        n ≤ maxPK ∧ ∀ j, j < n → j ∈ keys) ∧
    ((∀ k, k ≤ maxPK → k ∈ keys) →
      calc_lowest_key_bounded maxPK keys = none) := by
  constructor
  · rintro ⟨kf, hk1, hk2⟩
    obtain ⟨n, h1, h2, h3, h4, h5⟩ := scanBounded_finds maxPK keys (maxPK + 1) 0
      ⟨kf, by omega, by omega, by simpa using hk2⟩
    exact ⟨n, h1, h3, h4, fun j hj => h5 j (by omega) hj⟩
  · intro hfull
    exact scanBounded_none_of_full maxPK keys hfull (maxPK + 1) 0 (by omega)

/-- Closed witness for `calc_lowest_key_bounded_termination`: a key type
with representable non-negative keys 0 and 1.  With key 0 used the scan
returns 1; with both keys used it overflows without terminating
normally. -/
theorem calc_lowest_key_bounded_termination_witness :
    ((∃ k, k ≤ 1 ∧ k ∉ [0]) ∧
      ∃ n : Nat, calc_lowest_key_bounded 1 [0] = some n ∧ n ∉ [0] ∧
        n ≤ 1 ∧ ∀ j, j < n → j ∈ [0]) ∧
    ((∀ k, k ≤ 1 → k ∈ [0, 1]) ∧ calc_lowest_key_bounded 1 [0, 1] = none) :=
  ⟨⟨⟨1, by decide, by decide⟩,
    (calc_lowest_key_bounded_termination 1 [0]).1 ⟨1, by decide, by decide⟩⟩,
   ⟨fun k hk => by
      simp only [List.mem_cons, List.mem_singleton]
      omega,
    (calc_lowest_key_bounded_termination 1 [0, 1]).2 (fun k hk => by
      simp only [List.mem_cons, List.mem_singleton]
      omega)⟩⟩

end Skopje
